import Mathlib

/-!
Shallow embedding of the COIN_NET node (src/transactions.rs, src/messages.rs,
src/network.rs, src/miner.rs) and proofs about its specification claims.

Machine integers (`usize`, `u8`) are modelled as `Nat`; byte strings as lists of
naturals; `HashMap`/`HashSet` as association lists with key-unique insertion;
Rust panics (`unwrap` failures, out-of-range indexing) as `none` in an `Option`
result. External primitives (SHA-256, serde_json serialization, UTF-8 lossy
decoding, secp256k1 parsing and ECDSA verification) are parameters of the
embedding, collected in a `Crypto` record.
-/

/-- Byte strings (`Vec<u8>`, `[u8; 32]`, `[u8; 16]`) are lists of naturals. -/
abbrev Bytes := List Nat

/-- Opcodes of the script VM (`enum OpCode` in transactions.rs). -/
inductive OpCode
| PUSHBYTES (data : Bytes)
| DUP
| SHA256
| CHECKSIG
| EQUALVERIFY
deriving DecidableEq

/-- Script is an ordered sequence of opcodes (`struct Script(Vec<OpCode>)`). -/
structure Script where
  ops : List OpCode
deriving DecidableEq

/-- The empty script (`Script::empty`). -/
def Script.empty : Script := ⟨[]⟩

/-- Transaction input (`struct TxInput` in transactions.rs). -/
structure TxInput where
  prev : Bytes
  output_index : Nat
  script : Script
deriving DecidableEq

/-- Transaction output (`struct TxOutput` in transactions.rs). -/
structure TxOutput where
  value : Nat
  script : Script
deriving DecidableEq

/-- Transaction (`struct Transaction` in transactions.rs). -/
structure Transaction where
  timestamp : Nat
  version : Nat
  input_count : Nat
  inputs : List TxInput
  output_count : Nat
  outputs : List TxOutput
deriving DecidableEq

/-- Block header (`struct BlockHeader` in miner.rs); the nonce is 16 bytes. -/
structure BlockHeader where
  prev_hash : Bytes
  merkle_root : Bytes
  timestamp : Nat
  difficulty : Nat
  nonce : Bytes
  version : Nat
  height : Nat
deriving DecidableEq

/-- Block (`struct Block` in miner.rs). -/
structure Block where
  block_header : BlockHeader
  transactions : List Transaction
  transaction_count : Nat
deriving DecidableEq

/-- External primitives the Rust code calls: SHA-256 (sha2 crate), serde_json
serialization, `String::from_utf8_lossy`, and secp256k1 SEC1 public-key /
signature parsing together with ECDSA verification (k256 crate). They are
parameters of the embedding. Parsed keys and signatures are represented by their
byte encodings and parse success by a Boolean predicate, which loses nothing
observable since SEC1 and signature parsing are injective on their domains. -/
structure Crypto where
  sha256 : String → Bytes
  serializeTx : Transaction → String
  serializeBlock : Block → String
  utf8Lossy : Bytes → String
  parsePubKeyOk : Bytes → Bool
  parseSigOk : Bytes → Bool
  verify : Bytes → Bytes → Bytes → Bool

/-- Lower-case hexadecimal digit for a value below 16 (hex crate). -/
def hexDigit (n : Nat) : Char :=
  if n < 10 then Char.ofNat (48 + n) else Char.ofNat (87 + n)

/-- Lower-case hexadecimal encoding of a byte string (`hex::encode`). -/
def hexEncode (b : Bytes) : String :=
  String.mk (b.foldr (fun x acc => hexDigit (x / 16) :: hexDigit (x % 16) :: acc) [])

/-- Coinbase test (`is_coinbase` in transactions.rs): no inputs counted. -/
def is_coinbase (t : Transaction) : Bool := t.input_count == 0

/-- Signature hash (`compute_sig_hash` in transactions.rs): blank every input
script, overwrite input `input_index`'s script with the UTXO's locking script,
and hash the serialization. The Rust write `modified_tx.inputs[input_index]`
panics when the index is out of range; the panic is `none`. -/
def compute_sig_hash (C : Crypto) (tx : Transaction) (input_index : Nat)
    (utxo : TxOutput) : Option Bytes :=
  if input_index < tx.inputs.length then
    let newInputs := tx.inputs.mapIdx (fun j i =>
      { i with script := if j = input_index then utxo.script else Script.empty })
    some (C.sha256 (C.serializeTx { tx with inputs := newInputs }))
  else none

/-- Outcome of running the opcode loop of `Script::validate_script`: a panic
(failed `unwrap`), an early `return false`, or normal completion with the final
stack. -/
inductive EvalOut
| panic
| early
| done (stack : List Bytes)
deriving DecidableEq

/-- Opcode loop of `Script::validate_script` (transactions.rs). The stack of
byte vectors is a list whose head is the top. `SHA256` on an empty stack is a
no-op; `CHECKSIG` computes the sighash before popping, pops the public key then
the signature, returns `false` on underflow, panics (`unwrap`) on a parse
failure, and pushes `[1]` on successful verification. -/
def evalOps (C : Crypto) (tx : Transaction) (input_index : Nat) (utxo : TxOutput) :
    List OpCode → List Bytes → EvalOut
  | [], stack => .done stack
  | OpCode.PUSHBYTES data :: rest, stack => evalOps C tx input_index utxo rest (data :: stack)
  | OpCode.DUP :: rest, stack =>
    match stack with
    | [] => .early
    | top :: s => evalOps C tx input_index utxo rest (top :: top :: s)
  | OpCode.SHA256 :: rest, stack =>
    match stack with
    | [] => evalOps C tx input_index utxo rest []
    | top :: s => evalOps C tx input_index utxo rest (C.sha256 (C.utf8Lossy top) :: s)
  | OpCode.EQUALVERIFY :: rest, stack =>
    match stack with
    | x1 :: x2 :: s => if x1 = x2 then evalOps C tx input_index utxo rest s else .early
    | _ => .early
  | OpCode.CHECKSIG :: rest, stack =>
    match compute_sig_hash C tx input_index utxo with
    | none => .panic
    | some sighash =>
      match stack with
      | pk :: sig :: s =>
        if C.parsePubKeyOk pk then
          if C.parseSigOk sig then
            if C.verify pk sighash sig then evalOps C tx input_index utxo rest ([1] :: s)
            else .early
          else .panic
        else .panic
      | _ => .early

/-- Final acceptance test of `Script::validate_script`: the stack is non-empty
and its top holds at least one non-zero byte. -/
def finalCheck (stack : List Bytes) : Bool :=
  match stack with
  | [] => false
  | top :: _ => top.any (fun b => b ≠ 0)

/-- Script validation (`Script::validate_script` in transactions.rs), with
`none` for a panic inside the opcode loop. -/
def Script.validate_script (C : Crypto) (s : Script) (tx : Transaction)
    (input_index : Nat) (utxo : TxOutput) : Option Bool :=
  match evalOps C tx input_index utxo s.ops [] with
  | .panic => none
  | .early => some false
  | .done stack => some (finalCheck stack)

/-- Script concatenation (`Script::concat`). -/
def Script.concat (s1 s2 : Script) : Script := ⟨s1.ops ++ s2.ops⟩

/-- P2PKH unlocking script (`Script::P2PKHInput`). -/
def Script.P2PKHInput (sig pubkey : Bytes) : Script :=
  ⟨[OpCode.PUSHBYTES sig, OpCode.PUSHBYTES pubkey]⟩

/-- P2PKH locking script (`Script::P2PKHOutput`). -/
def Script.P2PKHOutput (pubkey_hash : Bytes) : Script :=
  ⟨[OpCode.DUP, OpCode.SHA256, OpCode.PUSHBYTES pubkey_hash,
    OpCode.EQUALVERIFY, OpCode.CHECKSIG]⟩

/-- Pubkey-hash extraction from a locking script
(`Script::P2PKHOutput_pubkey_hash`): the payload of the third opcode. -/
def Script.P2PKHOutput_pubkey_hash (s : Script) : Option Bytes :=
  match s.ops.get? 2 with
  | some (OpCode.PUSHBYTES h) => some h
  | _ => none

/-- Specification-side verification outcome of one `CHECKSIG`, following the
claim's words: the check fails on a failed ECDSA verification, where a
verification with an unparseable key or signature, or an undefined signature
hash, counts as failed. -/
def specVerify (C : Crypto) (tx : Transaction) (input_index : Nat) (utxo : TxOutput)
    (pk sig : Bytes) : Bool :=
  match compute_sig_hash C tx input_index utxo with
  | none => false
  | some sighash => C.parsePubKeyOk pk && C.parseSigOk sig && C.verify pk sighash sig

/-- Specification-side opcode processing, following the claim's words: `none`
records an aborting failure (`DUP` on an empty stack, `EQUALVERIFY` underflow or
unequal operands, `CHECKSIG` underflow or failed ECDSA verification); otherwise
the opcodes act on the stack as the VM describes. -/
def specOps (C : Crypto) (tx : Transaction) (input_index : Nat) (utxo : TxOutput) :
    List OpCode → List Bytes → Option (List Bytes)
  | [], stack => some stack
  | OpCode.PUSHBYTES data :: rest, stack => specOps C tx input_index utxo rest (data :: stack)
  | OpCode.DUP :: rest, stack =>
    match stack with
    | [] => none
    | top :: s => specOps C tx input_index utxo rest (top :: top :: s)
  | OpCode.SHA256 :: rest, stack =>
    match stack with
    | [] => specOps C tx input_index utxo rest []
    | top :: s => specOps C tx input_index utxo rest (C.sha256 (C.utf8Lossy top) :: s)
  | OpCode.EQUALVERIFY :: rest, stack =>
    match stack with
    | x1 :: x2 :: s => if x1 = x2 then specOps C tx input_index utxo rest s else none
    | _ => none
  | OpCode.CHECKSIG :: rest, stack =>
    match stack with
    | pk :: sig :: s =>
      if specVerify C tx input_index utxo pk sig
      then specOps C tx input_index utxo rest ([1] :: s)
      else none
    | _ => none

/-- Specification-side success condition for script validation, written from the
claim: every opcode is processed without an aborting failure and, afterwards,
the stack is non-empty with a non-zero byte in its top element. -/
def spec_validates (C : Crypto) (s : Script) (tx : Transaction)
    (input_index : Nat) (utxo : TxOutput) : Bool :=
  match specOps C tx input_index utxo s.ops [] with
  | none => false
  | some stack => finalCheck stack

/-- UTXO set (`struct UTXOS(HashMap<([u8; 32], usize), TxOutput>)`), modelled as
an association list with unique keys: insertion drops any stale entry for the
same key before consing. -/
structure UTXOS where
  entries : List ((Bytes × Nat) × TxOutput)
deriving DecidableEq

/-- Lookup (`UTXOS::get`): the cloned output stored under `(hash, index)`. -/
def UTXOS.get (u : UTXOS) (output_hash : Bytes) (index : Nat) : Option TxOutput :=
  (u.entries.find? (fun e => decide (e.1 = (output_hash, index)))).map Prod.snd

/-- Insertion (`HashMap::insert`, used by `UTXOS::add`): replaces any entry for
the same key. -/
def UTXOS.add (u : UTXOS) (hash : Bytes) (index : Nat) (output : TxOutput) : UTXOS :=
  ⟨((hash, index), output) :: u.entries.filter (fun e => !decide (e.1 = (hash, index)))⟩

/-- Key removal (`HashMap::remove`, used by `UTXOS::add_transaction`). -/
def UTXOS.removeKey (u : UTXOS) (hash : Bytes) (index : Nat) : UTXOS :=
  ⟨u.entries.filter (fun e => !decide (e.1 = (hash, index)))⟩

/-- Total input value accumulation of `UTXOS::get_fee`: `none` as soon as a
named input is missing from the set. -/
def totalIn (u : UTXOS) : List TxInput → Option Nat
  | [] => some 0
  | inp :: rest =>
    match u.get inp.prev inp.output_index with
    | none => none
    | some a => (totalIn u rest).map (fun t => a.value + t)

/-- Fee computation (`UTXOS::get_fee` in transactions.rs): sum the values of the
named input UTXOs (`none` on a missing input), subtract the output total, and
return `none` when the outputs exceed the inputs. -/
def UTXOS.get_fee (u : UTXOS) (transaction : Transaction) : Option Nat :=
  match totalIn u transaction.inputs with
  | none => none
  | some total_in =>
    let total_out := (transaction.outputs.map TxOutput.value).sum
    if total_out > total_in then none else some (total_in - total_out)

/-- Per-input loop of `UTXOS::validate_transaction` (transactions.rs lines
65-72). The source reads `if script.validate_script(..) { return false }` with
no negation, so it returns `false` as soon as a script validates and keeps going
when one does not; it also passes `input.output_index` as the VM's input index.
The `unwrap` on the lookup and a VM panic are `none`. -/
def validateInputs (C : Crypto) (u : UTXOS) (tx : Transaction) :
    List TxInput → Option Bool
  | [] => some true
  | inp :: rest =>
    match u.get inp.prev inp.output_index with
    | none => none
    | some utxo =>
      match (Script.concat inp.script utxo.script).validate_script C tx inp.output_index utxo with
      | none => none
      | some true => some false
      | some false => validateInputs C u tx rest

/-- Transaction validation (`UTXOS::validate_transaction`): `true` for a
coinbase, `false` when `get_fee` is undefined, otherwise the per-input loop. -/
def UTXOS.validate_transaction (C : Crypto) (u : UTXOS) (transaction : Transaction) :
    Option Bool :=
  if is_coinbase transaction then some true
  else if (u.get_fee transaction).isNone then some false
  else validateInputs C u transaction transaction.inputs

/-- State change of `UTXOS::add_transaction`: remove every named input key, then
insert each output under `(sha256(serialize(tx)), output_index)`. -/
def UTXOS.add_transaction (C : Crypto) (u : UTXOS) (transaction : Transaction) : UTXOS :=
  let hash := C.sha256 (C.serializeTx transaction)
  let u1 := transaction.inputs.foldl (fun acc inp => acc.removeKey inp.prev inp.output_index) u
  transaction.outputs.enum.foldl (fun acc p => acc.add hash p.1 p.2) u1

/-- State change of `UTXOS::add_block`: apply every contained transaction in
order. -/
def UTXOS.add_blockU (C : Crypto) (u : UTXOS) (block : Block) : UTXOS :=
  block.transactions.foldl (fun acc tx => UTXOS.add_transaction C acc tx) u

/-- Full `UTXOS::add_block` (transactions.rs): mutates the set and always
returns `true`. -/
def UTXOS.add_block (C : Crypto) (u : UTXOS) (block : Block) : UTXOS × Bool :=
  (UTXOS.add_blockU C u block, true)

/-- Wallet (`struct Wallet` in transactions.rs); the running value uses `Nat`
subtraction where the Rust `usize` subtraction sits. -/
structure Wallet where
  value : Nat
  utxos : UTXOS
  pub_key : Bytes
deriving DecidableEq

/-- Wallet construction (`Wallet::new`). -/
def Wallet.new (pub_key : Bytes) : Wallet := ⟨0, ⟨[]⟩, pub_key⟩

/-- One transaction of `Wallet::update`: drop and debit every input that names a
wallet UTXO, then credit and store every output whose locking script carries the
wallet's pubkey-hash in its third opcode. -/
def Wallet.applyTx (C : Crypto) (w : Wallet) (tx : Transaction) : Wallet :=
  let w1 := tx.inputs.foldl (fun acc inp =>
    match acc.utxos.get inp.prev inp.output_index with
    | some output =>
      { acc with
        value := acc.value - output.value,
        utxos := acc.utxos.removeKey inp.prev inp.output_index }
    | none => acc) w
  let pk_hash := C.sha256 (hexEncode w1.pub_key)
  let tx_hash := C.sha256 (C.serializeTx tx)
  tx.outputs.enum.foldl (fun acc p =>
    match p.2.script.P2PKHOutput_pubkey_hash with
    | some h =>
      if h = pk_hash then
        { acc with
          utxos := acc.utxos.add tx_hash p.1 p.2,
          value := acc.value + p.2.value }
      else acc
    | none => acc) w1

/-- Wallet update over a block (`Wallet::update`). -/
def Wallet.update (C : Crypto) (w : Wallet) (block : Block) : Wallet :=
  block.transactions.foldl (Wallet.applyTx C) w

/-- Greedy loop of `Wallet::get_inputs`: while the accumulated value does not
exceed the target, take the next key of the (cloned) UTXO map, `none` when the
map runs dry. The map's unspecified iteration order is the list order. -/
def getInputsLoop (value : Nat) :
    List ((Bytes × Nat) × TxOutput) → Nat → List ((Bytes × Nat) × TxOutput) →
    Option (List ((Bytes × Nat) × TxOutput) × Nat)
  | [], cur, acc => if cur ≤ value then none else some (acc, cur)
  | e :: rest, cur, acc =>
    if cur ≤ value then getInputsLoop value rest (cur + e.2.value) (acc ++ [e])
    else some (acc, cur)

/-- Input selection (`Wallet::get_inputs` in transactions.rs). -/
def Wallet.get_inputs (w : Wallet) (value : Nat) :
    Option (List ((Bytes × Nat) × TxOutput) × Nat) :=
  getInputsLoop value w.utxos.entries 0 []

/-- Mempool entry (`struct TransactionWithFee` in messages.rs). -/
structure TransactionWithFee where
  transaction : Transaction
  fee : Nat
deriving DecidableEq

/-- Rust `PartialEq`/`Hash` for `TransactionWithFee`: the transaction only, the
fee is ignored. -/
def txwfEq (a b : TransactionWithFee) : Bool := decide (a.transaction = b.transaction)

/-- Set membership up to `TransactionWithFee` equality (`HashSet::contains`class
behaviour of `insert`/`remove`). -/
def setContains (s : List TransactionWithFee) (x : TransactionWithFee) : Bool :=
  s.any (fun y => txwfEq y x)

/-- Heap-set composite (`struct HeapSet` in messages.rs), instantiated at
`TransactionWithFee` as in the source. The binary heap is a list holding the
same multiset; the hash set is a list without `txwfEq`-duplicates. -/
structure HeapSet where
  heap : List TransactionWithFee
  elements : List TransactionWithFee
deriving DecidableEq

/-- Insertion (`HeapSet::push`): reject when an equal item is already in the
set, otherwise add to both and report success. -/
def HeapSet.push (S : HeapSet) (item : TransactionWithFee) : HeapSet × Bool :=
  if setContains S.elements item then (S, false)
  else ({ heap := item :: S.heap, elements := item :: S.elements }, true)

/-- Maximum extraction from the heap list (`BinaryHeap::pop`): the element with
the greatest fee; the source's tie order is unspecified, the model keeps the
first maximum. -/
def extractMax : List TransactionWithFee → Option (TransactionWithFee × List TransactionWithFee)
  | [] => none
  | x :: xs =>
    match extractMax xs with
    | none => some (x, [])
    | some (m, rest) => if m.fee ≤ x.fee then some (x, xs) else some (m, x :: rest)

/-- Pop (`HeapSet::pop`): pop the heap maximum and remove its equal from the
set. -/
def HeapSet.pop (S : HeapSet) : Option (TransactionWithFee × HeapSet) :=
  match extractMax S.heap with
  | none => none
  | some (m, h) => some (m, { heap := h, elements := S.elements.filter (fun y => !txwfEq y m) })

/-- Removal (`HeapSet::remove`): when the set holds an equal item, drop it and
filter every equal item out of the heap. -/
def HeapSet.remove (S : HeapSet) (item : TransactionWithFee) : HeapSet :=
  if setContains S.elements item then
    { heap := S.heap.filter (fun x => !txwfEq x item),
      elements := S.elements.filter (fun y => !txwfEq y item) }
  else S

/-- Construction from a vector (`HeapSet::from_vec`): the heap keeps every
element, the set keeps one representative per equality class
(`HashSet::from_iter`). -/
def HeapSet.from_vec (v : List TransactionWithFee) : HeapSet :=
  { heap := v,
    elements := v.foldl (fun acc x => if setContains acc x then acc else x :: acc) [] }

/-- Mempool (`struct Mempool(pub HeapSet<TransactionWithFee>)`). -/
abbrev Mempool := HeapSet

/-- Blocks catch-up message (`struct Blocks` in messages.rs). -/
structure Blocks where
  start_height : Nat
  blockchain : List Block
deriving DecidableEq

/-- Consensus state (`struct Node` in network.rs). The key pair of `user` is
abstracted by its public key bytes, the only part the embedded operations
read. -/
structure Node where
  height : Nat
  version : Nat
  mempool : Mempool
  headers : List BlockHeader
  block_chain : List Block
  difficulty : Nat
  reward : Nat
  utxos : UTXOS
  wallet : Wallet
  userPubKey : Bytes
deriving DecidableEq

/-- Fresh node (`Node::new` with `DIFFICULTY = 3`, reward 10), parametrized by
the freshly generated key's public bytes. -/
def Node.new (pk : Bytes) : Node :=
  { height := 0, version := 0, mempool := ⟨[], []⟩, headers := [],
    block_chain := [], difficulty := 3, reward := 10, utxos := ⟨[]⟩,
    wallet := Wallet.new pk, userPubKey := pk }

/-- Mempool-removal loop shared by `Node::add_block` and `Node::update_blocks`:
for every transaction with a non-zero input count, unwrap its fee against the
already-updated UTXO set (`none` models the `unwrap` panic on a missing fee) and
remove the entry. -/
def mempoolFilterLoop (u : UTXOS) : Mempool → List Transaction → Option Mempool
  | mp, [] => some mp
  | mp, tx :: rest =>
    if tx.input_count ≠ 0 then
      match u.get_fee tx with
      | none => none
      | some fee => mempoolFilterLoop u (mp.remove ⟨tx, fee⟩) rest
    else mempoolFilterLoop u mp rest

/-- Success path shared by `Node::add_block` and each iteration of
`Node::update_blocks`: apply the block to the UTXO set (always reported as
succeeding), append the block and its header, increment the height, update the
wallet, then run the mempool-removal loop. -/
def Node.applyBlock (C : Crypto) (n : Node) (b : Block) : Option Node :=
  let u := (UTXOS.add_block C n.utxos b).1
  let n1 := { n with
    utxos := u,
    block_chain := n.block_chain ++ [b],
    headers := n.headers ++ [b.block_header],
    height := n.height + 1,
    wallet := Wallet.update C n.wallet b }
  match mempoolFilterLoop u n1.mempool b.transactions with
  | none => none
  | some mp => some { n1 with mempool := mp }

/-- Block acceptance (`Node::add_block` in network.rs): refuse a block whose
header height is not the successor of the node's height, otherwise run the
success path; `none` models the panic inside the mempool-removal loop. -/
def Node.add_block (C : Crypto) (n : Node) (block : Block) : Option (Bool × Node) :=
  if block.block_header.height ≠ n.height + 1 then some (false, n)
  else
    match Node.applyBlock C n block with
    | none => none
    | some n2 => some (true, n2)

/-- Inner loop of `Node::update_blocks` over the received chain. -/
def updateBlocksLoop (C : Crypto) : Node → List Block → Option Node
  | n, [] => some n
  | n, b :: rest =>
    match Node.applyBlock C n b with
    | none => none
    | some n2 => updateBlocksLoop C n2 rest

/-- Catch-up application (`Node::update_blocks` in network.rs): only when the
message's start height is the successor of the node's height, apply every block
in order. -/
def Node.update_blocks (C : Crypto) (n : Node) (blocks : Blocks) : Option Node :=
  if blocks.start_height = n.height + 1 then updateBlocksLoop C n blocks.blockchain
  else some n

/-- Operations a node applies over time, for the invariant claim. -/
inductive NodeOp
| add (b : Block)
| upd (bs : Blocks)

/-- One operation of a node history; the Boolean result of `add_block` is
discarded. -/
def Node.step (C : Crypto) (n : Node) : NodeOp → Option Node
  | .add b => (Node.add_block C n b).map Prod.snd
  | .upd bs => Node.update_blocks C n bs

/-- A whole history of `add_block` / `update_blocks` calls; a panic anywhere
aborts the run. -/
def Node.run (C : Crypto) (n : Node) : List NodeOp → Option Node
  | [] => some n
  | op :: rest =>
    match Node.step C n op with
    | none => none
    | some n2 => Node.run C n2 rest

/-- Difficulty predicate (`Block::meets_difficulty` in miner.rs): the hash
string starts with `target` repetitions of the character '0', stated on the
character sequence. -/
def meets_difficulty (hash : String) (target : Nat) : Bool :=
  (List.replicate target '0').isPrefixOf hash.data

/-- Nonce assignment (`Block::update_nonce`). -/
def Block.update_nonce (b : Block) (nonce : Bytes) : Block :=
  { b with block_header := { b.block_header with nonce := nonce } }

/-- Block hashing (`Block::calculate_hash`): SHA-256 of the serialized block. -/
def Block.calculate_hash (C : Crypto) (b : Block) : Bytes :=
  C.sha256 (C.serializeBlock b)

/-- Environment of one mining thread: the value the shared atomic `stop` flag
shows at the check before iteration `i`, the random nonce drawn at iteration
`i`, and whether the non-blocking `try_send` at iteration `i` would succeed. -/
structure MineEnv where
  stopAt : Nat → Bool
  nonceAt : Nat → Bytes
  sendOk : Nat → Bool

/-- Observable events of the mining loop: an iteration that hashed a nonce, a
successful `try_send` of a mined block, a failed `try_send` (after which the
thread returns). -/
inductive MineEvent
| tried (i : Nat)
| sent (i : Nat) (b : Block)
| sendFailed (i : Nat)
deriving DecidableEq

/-- Trace of the per-thread loop of `Block::mine` (miner.rs lines 101-121),
truncated at `fuel` iterations: while the stop flag is unset, draw a nonce,
write it into the header, hash, and on meeting the difficulty `try_send` the
block — returning early only when the send fails — then iterate on the mutated
block. -/
def mineRun (C : Crypto) (env : MineEnv) (target : Nat) :
    Nat → Nat → Block → List MineEvent
  | 0, _, _ => []
  | fuel + 1, i, b =>
    if env.stopAt i then []
    else
      let b2 := b.update_nonce (env.nonceAt i)
      if meets_difficulty (C.utf8Lossy (b2.calculate_hash C)) target then
        if env.sendOk i then
          MineEvent.tried i :: MineEvent.sent i b2 :: mineRun C env target fuel (i + 1) b2
        else [MineEvent.tried i, MineEvent.sendFailed i]
      else MineEvent.tried i :: mineRun C env target fuel (i + 1) b2

/-- Whole mining entry (`Block::mine`): the target is the header's difficulty,
iterations start at zero. -/
def Block.mine (C : Crypto) (env : MineEnv) (b : Block) (fuel : Nat) : List MineEvent :=
  mineRun C env b.block_header.difficulty fuel 0 b

/-- Trace property stated by the claim about `Block::mine`: every successful
send is the final event of the trace (the thread returns, no further
iterations). -/
def noEventsAfterSend : List MineEvent → Bool
  | [] => true
  | MineEvent.sent _ _ :: rest => rest.isEmpty
  | _ :: rest => noEventsAfterSend rest

/-- Degenerate instantiation of the external primitives, used to evaluate the
embedding on concrete inputs: constant hash, empty serialization, every parse
failing, every verification failing. -/
def trivialCrypto : Crypto :=
  { sha256 := fun _ => List.replicate 32 0,
    serializeTx := fun _ => "",
    serializeBlock := fun _ => "",
    utf8Lossy := fun _ => "",
    parsePubKeyOk := fun _ => false,
    parseSigOk := fun _ => false,
    verify := fun _ _ _ => false }

/-- C3: for every node and every block whose header height is not the successor
of the node's height, `Node::add_block` returns `false` and leaves every field
of the node unchanged (the returned node is the input node itself). -/
theorem add_block_wrong_height_unchanged (C : Crypto) (n : Node) (b : Block)
    (h : b.block_header.height ≠ n.height + 1) :
    Node.add_block C n b = some (false, n) := by
  simp [Node.add_block, h]

/-- Concrete node for witnesses: a fresh node with an empty public key. -/
def nodeW : Node := Node.new []

/-- Concrete block at the wrong height (5 against a node of height 0). -/
def blockW : Block :=
  { block_header :=
      { prev_hash := [], merkle_root := [], timestamp := 0,
        difficulty := 3, nonce := [], version := 0, height := 5 },
    transactions := [], transaction_count := 0 }

/-- Witness for the wrong-height claim at a concrete node and block. -/
theorem add_block_wrong_height_unchanged_witness :
    blockW.block_header.height ≠ nodeW.height + 1 ∧
    Node.add_block trivialCrypto nodeW blockW = some (false, nodeW) :=
  ⟨by decide, add_block_wrong_height_unchanged trivialCrypto nodeW blockW (by decide)⟩

/-- Concrete 32-byte hash key for the transaction-validation evaluation. -/
def hashA : Bytes := List.replicate 32 1

/-- Concrete UTXO with an empty (always-passing given the input push) locking
script. -/
def utxoC1 : TxOutput := { value := 5, script := Script.empty }

/-- Concrete non-coinbase transaction spending `utxoC1` with a validating
unlocking script and fee 2. -/
def txC1 : Transaction :=
  { timestamp := 0, version := 0, input_count := 1,
    inputs := [{ prev := hashA, output_index := 0, script := ⟨[OpCode.PUSHBYTES [1]]⟩ }],
    output_count := 1, outputs := [{ value := 3, script := Script.empty }] }

/-- Concrete UTXO set holding exactly the output `txC1` spends. -/
def utxosC1 : UTXOS := ⟨[((hashA, 0), utxoC1)]⟩

/-- C1 (evaluation at the failing input): the fee is defined, the single input's
concatenated script validates under the VM, yet `UTXOS::validate_transaction`
returns `false` — the source tests `if script.validate_script(..)` without
negation while logging "Invalid script", so the claimed (and intended) direction
is inverted in the code. -/
theorem validate_transaction_inverted_at_input :
    utxosC1.get_fee txC1 = some 2 ∧
    Script.validate_script trivialCrypto
      (Script.concat ⟨[OpCode.PUSHBYTES [1]]⟩ Script.empty) txC1 0 utxoC1 = some true ∧
    UTXOS.validate_transaction trivialCrypto utxosC1 txC1 = some false := by
  refine ⟨by decide, by decide, by decide⟩

/-- Helper for the CHECKSIG panic: with the stack holding an unparseable public
key, or a parseable key over an unparseable signature, the opcode loop panics. -/
lemma checksig_panic_aux (C : Crypto) (tx : Transaction) (idx : Nat)
    (utxo : TxOutput) (rest : List OpCode) (pk sig : Bytes) (st : List Bytes)
    (h : C.parsePubKeyOk pk = false ∨ (C.parsePubKeyOk pk = true ∧ C.parseSigOk sig = false)) :
    evalOps C tx idx utxo (OpCode.CHECKSIG :: rest) (pk :: sig :: st) = EvalOut.panic := by
  cases hsh : compute_sig_hash C tx idx utxo with
  | none => simp [evalOps, hsh]
  | some s =>
    rcases h with h1 | ⟨h1, h2⟩
    · simp [evalOps, hsh, h1]
    · simp [evalOps, hsh, h1, h2]

/-- C10: whenever `CHECKSIG` pops bytes that are not a valid SEC1 public key, or
a valid key over bytes that are not a valid signature encoding, the opcode loop
panics (the failed parse is unwrapped), and a transaction whose unlocking script
pushes such bytes under a `CHECKSIG` locking script crashes
`Script::validate_script` (`none`) instead of being rejected with `false`. -/
theorem checksig_parse_failure_panics (C : Crypto) (tx : Transaction) (idx : Nat)
    (utxo : TxOutput) (rest : List OpCode) (pk sig : Bytes) (st : List Bytes)
    (h : C.parsePubKeyOk pk = false ∨ (C.parsePubKeyOk pk = true ∧ C.parseSigOk sig = false)) :
    evalOps C tx idx utxo (OpCode.CHECKSIG :: rest) (pk :: sig :: st) = EvalOut.panic ∧
    Script.validate_script C (Script.concat (Script.P2PKHInput sig pk) ⟨[OpCode.CHECKSIG]⟩)
      tx idx utxo = none := by
  refine ⟨checksig_panic_aux C tx idx utxo rest pk sig st h, ?_⟩
  have e1 : evalOps C tx idx utxo
      ((Script.concat (Script.P2PKHInput sig pk) ⟨[OpCode.CHECKSIG]⟩).ops) [] = EvalOut.panic := by
    show evalOps C tx idx utxo
      [OpCode.PUSHBYTES sig, OpCode.PUSHBYTES pk, OpCode.CHECKSIG] [] = EvalOut.panic
    show evalOps C tx idx utxo [OpCode.CHECKSIG] [pk, sig] = EvalOut.panic
    exact checksig_panic_aux C tx idx utxo [] pk sig [] h
  simp only [Script.validate_script, e1]

/-- Empty concrete transaction used in several witnesses. -/
def txA : Transaction :=
  { timestamp := 0, version := 0, input_count := 0, inputs := [],
    output_count := 0, outputs := [] }

/-- Concrete output with value zero. -/
def utxoZ : TxOutput := { value := 0, script := Script.empty }

/-- Witness for the CHECKSIG panic claim at concrete malformed bytes. -/
theorem checksig_parse_failure_panics_witness :
    trivialCrypto.parsePubKeyOk [7] = false ∧
    evalOps trivialCrypto txA 0 utxoZ [OpCode.CHECKSIG] [[7], [8]] = EvalOut.panic ∧
    Script.validate_script trivialCrypto
      (Script.concat (Script.P2PKHInput [8] [7]) ⟨[OpCode.CHECKSIG]⟩) txA 0 utxoZ = none :=
  ⟨rfl,
   (checksig_parse_failure_panics trivialCrypto txA 0 utxoZ [] [7] [8] [] (Or.inl rfl)).1,
   (checksig_parse_failure_panics trivialCrypto txA 0 utxoZ [] [7] [8] [] (Or.inl rfl)).2⟩

/-- Specification-side input total: the sum of the values of the UTXOs named by
the transaction's inputs (missing entries contribute 0; the characterization
only uses this when every entry is present or to the right of a missing-input
disjunct). -/
def specInSum (u : UTXOS) (tx : Transaction) : Nat :=
  (tx.inputs.map (fun inp => ((u.get inp.prev inp.output_index).map TxOutput.value).getD 0)).sum

/-- Specification-side output total: the sum of the transaction's output
values. -/
def specOutSum (tx : Transaction) : Nat := (tx.outputs.map TxOutput.value).sum

/-- The input-total loop is undefined exactly when some named input is absent. -/
lemma totalIn_eq_none_iff (u : UTXOS) (l : List TxInput) :
    totalIn u l = none ↔ ∃ inp ∈ l, u.get inp.prev inp.output_index = none := by
  induction l with
  | nil => simp [totalIn]
  | cons a t ih =>
    cases hg : u.get a.prev a.output_index with
    | none => simp [totalIn, hg]
    | some o => simp [totalIn, hg, ih]

/-- When every named input is present, the input-total loop computes the sum of
the named values. -/
lemma totalIn_eq_some (u : UTXOS) (l : List TxInput)
    (h : ∀ inp ∈ l, (u.get inp.prev inp.output_index).isSome) :
    totalIn u l =
      some ((l.map (fun inp => ((u.get inp.prev inp.output_index).map TxOutput.value).getD 0)).sum) := by
  induction l with
  | nil => simp [totalIn]
  | cons a t ih =>
    obtain ⟨o, ho⟩ := Option.isSome_iff_exists.mp (h a (List.mem_cons_self a t))
    have ih2 := ih (fun i hi => h i (List.mem_cons_of_mem a hi))
    simp [totalIn, ho, ih2]

/-- C4: `UTXOS::get_fee` equals the input total minus the output total, is
undefined exactly when a named input key is absent or the output total exceeds
the input total, and equal totals yield `some 0`. -/
theorem get_fee_characterization (u : UTXOS) (tx : Transaction) :
    (u.get_fee tx = none ↔
      (∃ inp ∈ tx.inputs, u.get inp.prev inp.output_index = none) ∨
        specOutSum tx > specInSum u tx) ∧
    ((∀ inp ∈ tx.inputs, (u.get inp.prev inp.output_index).isSome) →
      u.get_fee tx =
        if specOutSum tx > specInSum u tx then none
        else some (specInSum u tx - specOutSum tx)) := by
  constructor
  · cases htot : totalIn u tx.inputs with
    | none =>
      have hmiss := (totalIn_eq_none_iff u tx.inputs).mp htot
      simp [UTXOS.get_fee, htot, hmiss]
    | some t =>
      have hall : ∀ inp ∈ tx.inputs, (u.get inp.prev inp.output_index).isSome := by
        intro inp hi
        by_contra hno
        rw [Option.not_isSome_iff_eq_none] at hno
        have hnone := (totalIn_eq_none_iff u tx.inputs).mpr ⟨inp, hi, hno⟩
        rw [htot] at hnone
        exact Option.noConfusion hnone
      have hmiss : ¬ ∃ inp ∈ tx.inputs, u.get inp.prev inp.output_index = none := by
        rw [← totalIn_eq_none_iff u tx.inputs, htot]
        simp
      have ht2 := totalIn_eq_some u tx.inputs hall
      rw [htot] at ht2
      have ht3 : t = specInSum u tx := by
        have := Option.some.inj ht2
        simpa [specInSum] using this
      subst ht3
      simp only [UTXOS.get_fee, htot, specOutSum, hmiss, false_or]
      constructor
      · intro h
        by_contra hle
        simp only [gt_iff_lt, not_lt] at hle
        rw [if_neg (by omega)] at h
        exact Option.noConfusion h
      · intro h
        rw [if_pos (by exact h)]
  · intro hall
    have ht := totalIn_eq_some u tx.inputs hall
    have ht3 : totalIn u tx.inputs = some (specInSum u tx) := by
      simpa [specInSum] using ht
    simp only [UTXOS.get_fee, ht3, specOutSum]

/-- Concrete UTXO set for the fee witness. -/
def utxosC4 : UTXOS := ⟨[(([2], 0), { value := 5, script := Script.empty })]⟩

/-- Concrete transaction for the fee witness: one present input, output total
3, fee 2. -/
def txC4 : Transaction :=
  { timestamp := 0, version := 0, input_count := 1,
    inputs := [{ prev := [2], output_index := 0, script := Script.empty }],
    output_count := 1, outputs := [{ value := 3, script := Script.empty }] }

/-- Witness for the fee characterization at a concrete set and transaction. -/
theorem get_fee_characterization_witness :
    (∀ inp ∈ txC4.inputs, (utxosC4.get inp.prev inp.output_index).isSome) ∧
    utxosC4.get_fee txC4 =
      (if specOutSum txC4 > specInSum utxosC4 txC4 then none
       else some (specInSum utxosC4 txC4 - specOutSum txC4)) :=
  ⟨by decide, (get_fee_characterization utxosC4 txC4).2 (by decide)⟩

/-- Sum of the values of a list of UTXO entries. -/
def sumVals (l : List ((Bytes × Nat) × TxOutput)) : Nat :=
  (l.map (fun e => e.2.value)).sum

/-- The greedy selection loop runs dry exactly when the remaining entries
cannot push the accumulated value strictly past the target. -/
lemma getInputsLoop_none_iff (value : Nat) (l : List ((Bytes × Nat) × TxOutput))
    (cur : Nat) (acc : List ((Bytes × Nat) × TxOutput)) :
    getInputsLoop value l cur acc = none ↔ cur + sumVals l ≤ value := by
  induction l generalizing cur acc with
  | nil =>
    by_cases h : cur ≤ value
    · simp [getInputsLoop, h, sumVals]
    · simp [getInputsLoop, h, sumVals]
  | cons e t ih =>
    by_cases h : cur ≤ value
    · simp only [getInputsLoop, if_pos h, ih, sumVals, List.map_cons, List.sum_cons]
      omega
    · simp only [getInputsLoop, if_neg h, sumVals, List.map_cons, List.sum_cons]
      constructor
      · intro hc
        exact Option.noConfusion hc
      · intro hc
        omega

/-- A successful greedy selection takes a prefix of the entry list, its total is
the starting value plus the sum of that prefix, and the total strictly exceeds
the target. -/
lemma getInputsLoop_some (value : Nat) (l : List ((Bytes × Nat) × TxOutput)) :
    ∀ cur acc sel tot, getInputsLoop value l cur acc = some (sel, tot) →
      ∃ k, sel = acc ++ l.take k ∧ tot = cur + sumVals (l.take k) ∧ value < tot := by
  induction l with
  | nil =>
    intro cur acc sel tot h
    by_cases hc : cur ≤ value
    · simp [getInputsLoop, hc] at h
    · simp only [getInputsLoop, if_neg hc, Option.some.injEq, Prod.mk.injEq] at h
      exact ⟨0, by simp [h.1.symm], by simp [sumVals, h.2.symm], by omega⟩
  | cons e t ih =>
    intro cur acc sel tot h
    by_cases hc : cur ≤ value
    · simp only [getInputsLoop, if_pos hc] at h
      obtain ⟨k, hsel, htot, hlt⟩ := ih (cur + e.2.value) (acc ++ [e]) sel tot h
      refine ⟨k + 1, ?_, ?_, hlt⟩
      · simp [hsel, List.take_succ_cons]
      · simp [htot, sumVals, List.take_succ_cons]
        omega
    · simp only [getInputsLoop, if_neg hc, Option.some.injEq, Prod.mk.injEq] at h
      exact ⟨0, by simp [h.1.symm], by simp [sumVals, h.2.symm], by omega⟩

/-- C8: `Wallet::get_inputs` returns `none` exactly when the wallet's whole
UTXO value is at most the target; a successful selection consists of distinct
entries of the wallet whose value sum is the returned total, strictly above the
target. The wallet's map is key-unique, stated as the Nodup hypothesis. -/
theorem get_inputs_characterization (w : Wallet) (t : Nat)
    (hnd : (w.utxos.entries.map Prod.fst).Nodup) :
    (w.get_inputs t = none ↔ sumVals w.utxos.entries ≤ t) ∧
    (∀ sel tot, w.get_inputs t = some (sel, tot) →
      tot = sumVals sel ∧ t < tot ∧ (∀ e ∈ sel, e ∈ w.utxos.entries) ∧
      (sel.map Prod.fst).Nodup) := by
  constructor
  · have h := getInputsLoop_none_iff t w.utxos.entries 0 []
    simpa [Wallet.get_inputs] using h
  · intro sel tot h
    obtain ⟨k, hsel, htot, hlt⟩ :=
      getInputsLoop_some t w.utxos.entries 0 [] sel tot h
    simp only [List.nil_append] at hsel
    refine ⟨by rw [htot, hsel]; omega, hlt, ?_, ?_⟩
    · intro e he
      rw [hsel] at he
      exact List.take_subset k w.utxos.entries he
    · rw [hsel, List.map_take]
      exact List.Nodup.sublist (List.take_sublist k (w.utxos.entries.map Prod.fst)) hnd

/-- Concrete wallet for the input-selection witness: one UTXO worth 5. -/
def walletC8 : Wallet :=
  { value := 5,
    utxos := ⟨[(([9], 0), { value := 5, script := Script.empty })]⟩,
    pub_key := [] }

/-- Witness for the input-selection characterization at a concrete wallet. -/
theorem get_inputs_characterization_witness :
    (walletC8.utxos.entries.map Prod.fst).Nodup ∧
    (walletC8.get_inputs 3 = none ↔ sumVals walletC8.utxos.entries ≤ 3) :=
  ⟨by decide, (get_inputs_characterization walletC8 3 (by decide)).1⟩

/-- Equivalence of the code-side opcode loop and the specification-side loop:
the code completes normally with a given final stack exactly when the
specification-side processing succeeds with that stack; early `false` returns
and panics on the code side both land in the specification's aborting
failures. -/
lemma evalOps_done_iff_specOps (C : Crypto) (tx : Transaction) (idx : Nat)
    (utxo : TxOutput) (ops : List OpCode) :
    ∀ stack out, evalOps C tx idx utxo ops stack = EvalOut.done out ↔
      specOps C tx idx utxo ops stack = some out := by
  induction ops with
  | nil =>
    intro stack out
    simp [evalOps, specOps]
  | cons op rest ih =>
    intro stack out
    cases op with
    | PUSHBYTES d => simpa [evalOps, specOps] using ih (d :: stack) out
    | DUP =>
      cases stack with
      | nil => simp [evalOps, specOps]
      | cons a s => simpa [evalOps, specOps] using ih (a :: a :: s) out
    | SHA256 =>
      cases stack with
      | nil => simpa [evalOps, specOps] using ih [] out
      | cons a s => simpa [evalOps, specOps] using ih (C.sha256 (C.utf8Lossy a) :: s) out
    | EQUALVERIFY =>
      match stack with
      | [] => simp [evalOps, specOps]
      | [a] => simp [evalOps, specOps]
      | a :: b :: s =>
        by_cases hab : a = b
        · simpa [evalOps, specOps, hab] using ih s out
        · simp [evalOps, specOps, hab]
    | CHECKSIG =>
      cases hsh : compute_sig_hash C tx idx utxo with
      | none =>
        match stack with
        | [] => simp [evalOps, specOps, hsh]
        | [a] => simp [evalOps, specOps, hsh]
        | pk :: sig :: s => simp [evalOps, specOps, hsh, specVerify]
      | some sh =>
        match stack with
        | [] => simp [evalOps, specOps, hsh]
        | [a] => simp [evalOps, specOps, hsh]
        | pk :: sig :: s =>
          by_cases hp : C.parsePubKeyOk pk
          · by_cases hq : C.parseSigOk sig
            · by_cases hv : C.verify pk sh sig
              · simpa [evalOps, specOps, hsh, specVerify, hp, hq, hv] using ih ([1] :: s) out
              · simp [evalOps, specOps, hsh, specVerify, hp, hq, hv]
            · simp [evalOps, specOps, hsh, specVerify, hp, hq]
          · simp [evalOps, specOps, hsh, specVerify, hp]

/-- C2: `Script::validate_script` returns `true` exactly when every opcode is
processed without an aborting failure (`DUP` on an empty stack, `EQUALVERIFY`
underflow or unequal operands, `CHECKSIG` underflow or failed ECDSA
verification — a verification with unparseable bytes or an undefined sighash
counting as failed) and the final stack is non-empty with a non-zero byte in
its top element, as captured by the specification-side evaluator. -/
theorem validate_script_iff_spec (C : Crypto) (s : Script) (tx : Transaction)
    (idx : Nat) (utxo : TxOutput) :
    s.validate_script C tx idx utxo = some true ↔
      spec_validates C s tx idx utxo = true := by
  unfold Script.validate_script spec_validates
  cases hev : evalOps C tx idx utxo s.ops [] with
  | panic =>
    have hs : specOps C tx idx utxo s.ops [] = none := by
      cases hsp : specOps C tx idx utxo s.ops [] with
      | none => rfl
      | some st =>
        have := (evalOps_done_iff_specOps C tx idx utxo s.ops [] st).mpr hsp
        rw [hev] at this
        exact absurd this (by simp)
    simp [hs]
  | early =>
    have hs : specOps C tx idx utxo s.ops [] = none := by
      cases hsp : specOps C tx idx utxo s.ops [] with
      | none => rfl
      | some st =>
        have := (evalOps_done_iff_specOps C tx idx utxo s.ops [] st).mpr hsp
        rw [hev] at this
        exact absurd this (by simp)
    simp [hs]
  | done st =>
    have hs : specOps C tx idx utxo s.ops [] = some st :=
      (evalOps_done_iff_specOps C tx idx utxo s.ops [] st).mp hev
    simp [hs]

/-- Node invariant as the claim states it: chain and header list have equal
length, that length is the height, and at every index the stored header is the
stored block's header. -/
def NodeInv (n : Node) : Prop :=
  n.block_chain.length = n.headers.length ∧
  n.headers.length = n.height ∧
  ∀ i, n.headers.get? i = (n.block_chain.get? i).map Block.block_header

/-- Strengthened shape used in the induction: the header list is the map of the
chain, and the chain length is the height. -/
def NodeShape (n : Node) : Prop :=
  n.headers = n.block_chain.map Block.block_header ∧
  n.block_chain.length = n.height

/-- The strengthened shape implies the claim's invariant. -/
lemma nodeShape_inv {n : Node} (h : NodeShape n) : NodeInv n := by
  obtain ⟨hm, hl⟩ := h
  refine ⟨by simp [hm], by simp [hm, hl], ?_⟩
  intro i
  rw [hm, List.get?_map]

/-- The shared success path preserves the shape: block and header are appended
together and the height is incremented. -/
lemma applyBlock_shape {C : Crypto} {n n2 : Node} {b : Block}
    (h : Node.applyBlock C n b = some n2) (hs : NodeShape n) : NodeShape n2 := by
  unfold Node.applyBlock at h
  simp only [UTXOS.add_block] at h
  cases hml : mempoolFilterLoop (UTXOS.add_blockU C n.utxos b) n.mempool b.transactions with
  | none => rw [hml] at h; exact Option.noConfusion h
  | some mp =>
    rw [hml] at h
    obtain rfl := Option.some.inj h
    obtain ⟨hm, hl⟩ := hs
    exact ⟨by simp [hm], by simp [hl]⟩

/-- The inner catch-up loop preserves the shape. -/
lemma updateBlocksLoop_shape {C : Crypto} :
    ∀ (bs : List Block) (n n2 : Node), updateBlocksLoop C n bs = some n2 →
      NodeShape n → NodeShape n2 := by
  intro bs
  induction bs with
  | nil =>
    intro n n2 h hs
    obtain rfl := Option.some.inj h
    exact hs
  | cons b rest ih =>
    intro n n2 h hs
    unfold updateBlocksLoop at h
    cases hap : Node.applyBlock C n b with
    | none => rw [hap] at h; exact Option.noConfusion h
    | some n1 =>
      rw [hap] at h
      exact ih n1 n2 h (applyBlock_shape hap hs)

/-- One `add_block` or `update_blocks` call preserves the shape. -/
lemma step_shape {C : Crypto} {n n2 : Node} {op : NodeOp}
    (h : Node.step C n op = some n2) (hs : NodeShape n) : NodeShape n2 := by
  cases op with
  | add b =>
    simp only [Node.step, Node.add_block] at h
    by_cases hh : b.block_header.height ≠ n.height + 1
    · rw [if_pos hh] at h
      simp only [Option.map_some', Option.some.injEq] at h
      rw [← h]
      exact hs
    · rw [if_neg hh] at h
      cases hap : Node.applyBlock C n b with
      | none => rw [hap] at h; exact Option.noConfusion h
      | some n1 =>
        rw [hap] at h
        simp only [Option.map_some', Option.some.injEq] at h
        rw [← h]
        exact applyBlock_shape hap hs
  | upd bs =>
    simp only [Node.step, Node.update_blocks] at h
    by_cases hh : bs.start_height = n.height + 1
    · rw [if_pos hh] at h
      exact updateBlocksLoop_shape bs.blockchain n n2 h hs
    · rw [if_neg hh] at h
      obtain rfl := Option.some.inj h
      exact hs

/-- A whole history of operations preserves the shape. -/
lemma run_shape {C : Crypto} :
    ∀ (ops : List NodeOp) (n n2 : Node), Node.run C n ops = some n2 →
      NodeShape n → NodeShape n2 := by
  intro ops
  induction ops with
  | nil =>
    intro n n2 h hs
    obtain rfl := Option.some.inj h
    exact hs
  | cons op rest ih =>
    intro n n2 h hs
    unfold Node.run at h
    cases hst : Node.step C n op with
    | none => rw [hst] at h; exact Option.noConfusion h
    | some n1 =>
      rw [hst] at h
      exact ih n1 n2 h (step_shape hst hs)

/-- C6: starting from `Node::new`, after any completed sequence of `add_block`
and `update_blocks` calls, the chain length, header length and height agree,
and every stored header is the corresponding block's header. -/
theorem node_invariant_after_run (C : Crypto) (pk : Bytes) (ops : List NodeOp)
    (n : Node) (h : Node.run C (Node.new pk) ops = some n) : NodeInv n :=
  nodeShape_inv (run_shape ops (Node.new pk) n h ⟨rfl, rfl⟩)

/-- Witness for the invariant claim: a run consisting of one wrong-height
`add_block` call completes and the invariant holds afterwards. -/
theorem node_invariant_after_run_witness :
    Node.run trivialCrypto (Node.new []) [NodeOp.add blockW] = some (Node.new []) ∧
    NodeInv (Node.new []) :=
  ⟨by decide,
   node_invariant_after_run trivialCrypto [] [NodeOp.add blockW] (Node.new []) (by decide)⟩

/-- A missing named input makes `get_fee` undefined. -/
lemma get_fee_none_of_missing (u : UTXOS) (tx : Transaction) (inp : TxInput)
    (hmem : inp ∈ tx.inputs) (hget : u.get inp.prev inp.output_index = none) :
    u.get_fee tx = none := by
  have h := (totalIn_eq_none_iff u tx.inputs).mpr ⟨inp, hmem, hget⟩
  simp [UTXOS.get_fee, h]

/-- The mempool-removal loop panics as soon as some transaction with inputs has
an undefined fee against the updated UTXO set. -/
lemma mempoolFilterLoop_none (u : UTXOS) :
    ∀ (txs : List Transaction) (mp : Mempool),
      (∃ tx ∈ txs, tx.input_count ≠ 0 ∧ u.get_fee tx = none) →
      mempoolFilterLoop u mp txs = none := by
  intro txs
  induction txs with
  | nil =>
    rintro mp ⟨tx, htx, _⟩
    exact absurd htx (List.not_mem_nil tx)
  | cons a t ih =>
    rintro mp ⟨tx, hmem, hic, hfee⟩
    rcases List.mem_cons.mp hmem with rfl | hmem2
    · simp [mempoolFilterLoop, hic, hfee]
    · by_cases ha : a.input_count ≠ 0
      · cases hf : u.get_fee a with
        | none => simp [mempoolFilterLoop, ha, hf]
        | some fee =>
          simp only [mempoolFilterLoop, if_pos ha, hf]
          exact ih (mp.remove ⟨a, fee⟩) ⟨tx, hmem2, hic, hfee⟩
      · simp only [mempoolFilterLoop, if_neg ha]
        exact ih mp ⟨tx, hmem2, hic, hfee⟩

/-- C9: a block at the correct height containing a transaction with inputs
whose named key is absent from the UTXO set after the block itself has been
applied (its inputs were consumed and not re-created by the block's own
transactions) makes `Node::add_block` panic (`none`): the mempool-removal loop
unwraps `get_fee` against the already-updated set. -/
theorem add_block_panics_on_spent_inputs (C : Crypto) (n : Node) (b : Block)
    (hh : b.block_header.height = n.height + 1)
    (hex : ∃ tx ∈ b.transactions, tx.input_count ≠ 0 ∧
      ∃ inp ∈ tx.inputs,
        (UTXOS.add_blockU C n.utxos b).get inp.prev inp.output_index = none) :
    Node.add_block C n b = none := by
  obtain ⟨tx, hmem, hic, inp, himem, hget⟩ := hex
  have hfee : (UTXOS.add_blockU C n.utxos b).get_fee tx = none :=
    get_fee_none_of_missing _ tx inp himem hget
  have hml := mempoolFilterLoop_none (UTXOS.add_blockU C n.utxos b)
    b.transactions n.mempool ⟨tx, hmem, hic, hfee⟩
  simp [Node.add_block, hh, Node.applyBlock, UTXOS.add_block, hml]

/-- Concrete block for the panic witness: correct height 1, one transaction
spending a key that is absent both before and after application. -/
def blockC9 : Block :=
  { block_header :=
      { prev_hash := [], merkle_root := [], timestamp := 0,
        difficulty := 3, nonce := [], version := 0, height := 1 },
    transactions :=
      [{ timestamp := 0, version := 0, input_count := 1,
         inputs := [{ prev := [3], output_index := 0, script := Script.empty }],
         output_count := 0, outputs := [] }],
    transaction_count := 1 }

/-- Witness for the panic claim: the concrete block makes `add_block` panic on
a fresh node. -/
theorem add_block_panics_on_spent_inputs_witness :
    blockC9.block_header.height = (Node.new []).height + 1 ∧
    Node.add_block trivialCrypto (Node.new []) blockC9 = none :=
  ⟨rfl,
   add_block_panics_on_spent_inputs trivialCrypto (Node.new []) blockC9 rfl
     ⟨{ timestamp := 0, version := 0, input_count := 1,
        inputs := [{ prev := [3], output_index := 0, script := Script.empty }],
        output_count := 0, outputs := [] },
      by decide,
      by decide,
      { prev := [3], output_index := 0, script := Script.empty },
      by decide,
      by decide⟩⟩

/-- Membership invariant of the heap-set composite as the claim states it: an
item is in the heap exactly when it is in the set, membership taken up to
`TransactionWithFee` equality (transaction only, fee ignored). -/
def HSInv (S : HeapSet) : Prop :=
  (∀ x ∈ S.heap, ∃ y ∈ S.elements, x.transaction = y.transaction) ∧
  (∀ x ∈ S.elements, ∃ y ∈ S.heap, x.transaction = y.transaction)

/-- No two heap items share a transaction identity. -/
def HeapTxNodup (S : HeapSet) : Prop :=
  S.heap.Pairwise (fun a b => a.transaction ≠ b.transaction)

instance (S : HeapSet) : Decidable (HSInv S) := by
  unfold HSInv
  infer_instance

instance (S : HeapSet) : Decidable (HeapTxNodup S) := by
  unfold HeapTxNodup
  infer_instance

/-- Set membership test unfolded to a class condition. -/
lemma setContains_iff (s : List TransactionWithFee) (x : TransactionWithFee) :
    setContains s x = true ↔ ∃ y ∈ s, y.transaction = x.transaction := by
  simp [setContains, txwfEq, List.any_eq_true]

/-- Classes represented in the deduplicating fold of `HeapSet::from_vec` are
exactly those of the accumulator and the input. -/
lemma foldInsert_mem_class (v : List TransactionWithFee) :
    ∀ (acc : List TransactionWithFee) (t : Transaction),
      (∃ y ∈ v.foldl (fun acc x => if setContains acc x then acc else x :: acc) acc,
          y.transaction = t) ↔
        (∃ y ∈ acc, y.transaction = t) ∨ (∃ y ∈ v, y.transaction = t) := by
  induction v with
  | nil => intro acc t; simp
  | cons a rest ih =>
    intro acc t
    simp only [List.foldl_cons]
    by_cases hc : setContains acc a = true
    · rw [if_pos hc, ih acc t]
      constructor
      · rintro (h | ⟨y, hy, hyt⟩)
        · exact Or.inl h
        · exact Or.inr ⟨y, List.mem_cons_of_mem a hy, hyt⟩
      · rintro (h | ⟨y, hy, hyt⟩)
        · exact Or.inl h
        · rcases List.mem_cons.mp hy with rfl | hy2
          · obtain ⟨z, hz, hza⟩ := (setContains_iff acc y).mp hc
            exact Or.inl ⟨z, hz, hza.trans hyt⟩
          · exact Or.inr ⟨y, hy2, hyt⟩
    · rw [if_neg hc, ih (a :: acc) t]
      constructor
      · rintro (⟨y, hy, hyt⟩ | ⟨y, hy, hyt⟩)
        · rcases List.mem_cons.mp hy with rfl | hy2
          · exact Or.inr ⟨y, List.mem_cons_self y rest, hyt⟩
          · exact Or.inl ⟨y, hy2, hyt⟩
        · exact Or.inr ⟨y, List.mem_cons_of_mem a hy, hyt⟩
      · rintro (⟨y, hy, hyt⟩ | ⟨y, hy, hyt⟩)
        · exact Or.inl ⟨y, List.mem_cons_of_mem a hy, hyt⟩
        · rcases List.mem_cons.mp hy with rfl | hy2
          · exact Or.inl ⟨y, List.mem_cons_self y acc, hyt⟩
          · exact Or.inr ⟨y, hy2, hyt⟩

/-- `HeapSet::from_vec` always establishes the membership invariant. -/
lemma from_vec_inv (v : List TransactionWithFee) : HSInv (HeapSet.from_vec v) := by
  constructor
  · intro x hx
    have h := (foldInsert_mem_class v [] x.transaction).mpr
      (Or.inr ⟨x, hx, rfl⟩)
    obtain ⟨y, hy, hyx⟩ := h
    exact ⟨y, hy, hyx.symm⟩
  · intro x hx
    have h := (foldInsert_mem_class v [] x.transaction).mp ⟨x, hx, rfl⟩
    rcases h with ⟨y, hy, _⟩ | ⟨y, hy, hyx⟩
    · exact absurd hy (List.not_mem_nil y)
    · exact ⟨y, hy, hyx.symm⟩

/-- `HeapSet::push` preserves the membership invariant. -/
lemma push_inv (S : HeapSet) (item : TransactionWithFee) (hi : HSInv S) :
    HSInv (S.push item).1 := by
  by_cases hc : setContains S.elements item = true
  · simpa [HeapSet.push, hc] using hi
  · simp only [HeapSet.push, if_neg hc]
    constructor
    · intro x hx
      rcases List.mem_cons.mp hx with rfl | hx2
      · exact ⟨x, List.mem_cons_self x _, rfl⟩
      · obtain ⟨y, hy, hxy⟩ := hi.1 x hx2
        exact ⟨y, List.mem_cons_of_mem item hy, hxy⟩
    · intro x hx
      rcases List.mem_cons.mp hx with rfl | hx2
      · exact ⟨x, List.mem_cons_self x _, rfl⟩
      · obtain ⟨y, hy, hxy⟩ := hi.2 x hx2
        exact ⟨y, List.mem_cons_of_mem item hy, hxy⟩

/-- `HeapSet::remove` preserves the membership invariant: it filters the same
equality class out of both components. -/
lemma remove_inv (S : HeapSet) (item : TransactionWithFee) (hi : HSInv S) :
    HSInv (S.remove item) := by
  by_cases hc : setContains S.elements item = true
  · simp only [HeapSet.remove, if_pos hc]
    constructor
    · intro x hx
      obtain ⟨hxh, hxf⟩ := List.mem_filter.mp hx
      have hxi : x.transaction ≠ item.transaction := by simpa [txwfEq] using hxf
      obtain ⟨y, hy, hxy⟩ := hi.1 x hxh
      refine ⟨y, List.mem_filter.mpr ⟨hy, ?_⟩, hxy⟩
      simp only [txwfEq, Bool.not_eq_eq_eq_not, Bool.not_true, decide_eq_false_iff_not]
      rw [← hxy]
      exact hxi
    · intro y hy
      obtain ⟨hy0, hyf⟩ := List.mem_filter.mp hy
      have hyi : y.transaction ≠ item.transaction := by simpa [txwfEq] using hyf
      obtain ⟨x, hxh, hyx⟩ := hi.2 y hy0
      refine ⟨x, List.mem_filter.mpr ⟨hxh, ?_⟩, hyx⟩
      simp only [txwfEq, Bool.not_eq_eq_eq_not, Bool.not_true, decide_eq_false_iff_not]
      rw [← hyx]
      exact hyi
  · simpa [HeapSet.remove, hc] using hi

/-- `extractMax` never fails on a non-empty list. -/
lemma extractMax_eq_none {l : List TransactionWithFee}
    (h : extractMax l = none) : l = [] := by
  cases l with
  | nil => rfl
  | cons x xs =>
    exfalso
    cases hx : extractMax xs with
    | none => simp [extractMax, hx] at h
    | some p =>
      simp only [extractMax, hx] at h
      split at h <;> exact Option.noConfusion h

/-- A successful `extractMax` splits the list around the extracted element. -/
lemma extractMax_decomp :
    ∀ (l : List TransactionWithFee) (m : TransactionWithFee)
      (rest : List TransactionWithFee), extractMax l = some (m, rest) →
        ∃ l1 l2, l = l1 ++ m :: l2 ∧ rest = l1 ++ l2 := by
  intro l
  induction l with
  | nil => intro m rest h; exact Option.noConfusion h
  | cons x xs ih =>
    intro m rest h
    cases hx : extractMax xs with
    | none =>
      have hxs := extractMax_eq_none hx
      subst hxs
      simp only [extractMax, Option.some.injEq, Prod.mk.injEq] at h
      exact ⟨[], [], by simp [h.1], by simp [h.2]⟩
    | some p =>
      obtain ⟨m0, r0⟩ := p
      simp only [extractMax, hx] at h
      by_cases hf : m0.fee ≤ x.fee
      · rw [if_pos hf] at h
        simp only [Option.some.injEq, Prod.mk.injEq] at h
        exact ⟨[], xs, by simp [h.1], by simp [h.2]⟩
      · rw [if_neg hf] at h
        simp only [Option.some.injEq, Prod.mk.injEq] at h
        obtain ⟨l1, l2, hl, hr⟩ := ih m0 r0 hx
        refine ⟨x :: l1, l2, ?_, ?_⟩
        · rw [← h.1]; simp [hl]
        · rw [← h.2]; simp [hr]

/-- `HeapSet::pop` preserves the membership invariant provided no two heap
items share a transaction identity, and it preserves that uniqueness. -/
lemma pop_inv (S : HeapSet) (hi : HSInv S) (hn : HeapTxNodup S)
    (m : TransactionWithFee) (S' : HeapSet) (h : S.pop = some (m, S')) :
    HSInv S' ∧ HeapTxNodup S' := by
  unfold HeapSet.pop at h
  cases hx : extractMax S.heap with
  | none => rw [hx] at h; exact Option.noConfusion h
  | some p =>
    obtain ⟨m0, h0⟩ := p
    rw [hx] at h
    simp only [Option.some.injEq, Prod.mk.injEq] at h
    obtain ⟨rfl, rfl⟩ := h
    obtain ⟨l1, l2, hl, hr⟩ := extractMax_decomp S.heap m0 h0 hx
    have hnd : (l1 ++ m0 :: l2).Pairwise (fun a b => a.transaction ≠ b.transaction) := by
      have := hn
      unfold HeapTxNodup at this
      rwa [hl] at this
    have hne : ∀ x ∈ l1 ++ l2, x.transaction ≠ m0.transaction := by
      intro x hx2
      rcases List.mem_append.mp hx2 with h1 | h2
      · exact (List.pairwise_append.mp hnd).2.2 x h1 m0 (List.mem_cons_self m0 l2)
      · have hp2 := (List.pairwise_append.mp hnd).2.1
        exact fun hxx => ((List.pairwise_cons.mp hp2).1 x h2) hxx.symm
    refine ⟨⟨?_, ?_⟩, ?_⟩
    · intro x hxh
      rw [hr] at hxh
      have hxm : x ∈ S.heap := by
        rw [hl]
        rcases List.mem_append.mp hxh with h1 | h2
        · exact List.mem_append_left _ h1
        · exact List.mem_append_right _ (List.mem_cons_of_mem m0 h2)
      obtain ⟨y, hy, hxy⟩ := hi.1 x hxm
      refine ⟨y, List.mem_filter.mpr ⟨hy, ?_⟩, hxy⟩
      simp only [txwfEq, Bool.not_eq_eq_eq_not, Bool.not_true, decide_eq_false_iff_not]
      rw [← hxy]
      exact hne x hxh
    · intro y hy
      obtain ⟨hy0, hyf⟩ := List.mem_filter.mp hy
      have hym : y.transaction ≠ m0.transaction := by simpa [txwfEq] using hyf
      obtain ⟨x, hxh, hyx⟩ := hi.2 y hy0
      rw [hl] at hxh
      rcases List.mem_append.mp hxh with h1 | h2
      · exact ⟨x, by rw [hr]; exact List.mem_append_left _ h1, hyx⟩
      · rcases List.mem_cons.mp h2 with rfl | h3
        · exact absurd hyx hym
        · exact ⟨x, by rw [hr]; exact List.mem_append_right _ h3, hyx⟩
    · unfold HeapTxNodup
      rw [hr]
      exact List.Pairwise.sublist ((List.sublist_cons_self m0 l2).append_left l1) hnd

/-- `HeapSet::push` preserves transaction uniqueness of the heap, given the
membership invariant. -/
lemma push_nodup (S : HeapSet) (item : TransactionWithFee) (hi : HSInv S)
    (hn : HeapTxNodup S) : HeapTxNodup (S.push item).1 := by
  by_cases hc : setContains S.elements item = true
  · simpa [HeapSet.push, hc] using hn
  · simp only [HeapSet.push, if_neg hc]
    refine List.pairwise_cons.mpr ⟨?_, hn⟩
    intro x hx hcontra
    obtain ⟨y, hy, hxy⟩ := hi.1 x hx
    exact hc ((setContains_iff S.elements item).mpr
      ⟨y, hy, hxy.symm.trans hcontra.symm⟩)

/-- C7 (amended): the membership invariant is preserved by `push` and `remove`
and established by `from_vec`; `pop` preserves it provided no two heap items
share a transaction identity — a condition `push` maintains but `from_vec` does
not establish when its input holds two fee-distinct copies of one transaction;
and `push` of an already-present transaction identity returns `false` leaving
both components unchanged. -/
theorem heapset_membership_invariant (S : HeapSet) (item : TransactionWithFee)
    (v : List TransactionWithFee) (m : TransactionWithFee) (S' : HeapSet) :
    (HSInv S → HSInv (S.push item).1) ∧
    (HSInv S → HSInv (S.remove item)) ∧
    HSInv (HeapSet.from_vec v) ∧
    (HSInv S → HeapTxNodup S → S.pop = some (m, S') → HSInv S' ∧ HeapTxNodup S') ∧
    (HSInv S → HeapTxNodup S → HeapTxNodup (S.push item).1) ∧
    (setContains S.elements item = true → S.push item = (S, false)) :=
  ⟨fun hi => push_inv S item hi,
   fun hi => remove_inv S item hi,
   from_vec_inv v,
   fun hi hn h => pop_inv S hi hn m S' h,
   fun hi hn => push_nodup S item hi hn,
   fun hc => by simp [HeapSet.push, hc]⟩

/-- C7 (counterexample): `from_vec` of two fee-distinct copies of one
transaction satisfies the membership invariant, yet the following `pop` leaves
an item in the heap with no equal item in the set — so the invariant is not
preserved by every operation as claimed. -/
theorem heapset_pop_breaks_invariant :
    HSInv (HeapSet.from_vec [⟨txA, 5⟩, ⟨txA, 7⟩]) ∧
    HeapSet.pop (HeapSet.from_vec [⟨txA, 5⟩, ⟨txA, 7⟩]) =
      some (⟨txA, 7⟩, ⟨[⟨txA, 5⟩], []⟩) ∧
    ¬ HSInv (⟨[⟨txA, 5⟩], []⟩ : HeapSet) := by
  refine ⟨by decide, by decide, ?_⟩
  intro h
  obtain ⟨y, hy, _⟩ := h.1 ⟨txA, 5⟩ (List.mem_cons_self _ _)
  exact List.not_mem_nil y hy

/-- Concrete heap-set for the amended-claim witness. -/
def hsW : HeapSet := ⟨[⟨txA, 5⟩], [⟨txA, 5⟩]⟩

/-- Witness for the amended heap-set claim at concrete states. -/
theorem heapset_membership_invariant_witness :
    HSInv ((hsW.push ⟨txA, 9⟩).1) ∧ HSInv (hsW.remove ⟨txA, 9⟩) ∧
    HSInv (HeapSet.from_vec [⟨txA, 5⟩]) ∧
    (HSInv (⟨[], []⟩ : HeapSet) ∧ HeapTxNodup (⟨[], []⟩ : HeapSet)) ∧
    HeapTxNodup ((hsW.push ⟨txA, 9⟩).1) ∧ hsW.push ⟨txA, 9⟩ = (hsW, false) := by
  have h := heapset_membership_invariant hsW ⟨txA, 9⟩ [⟨txA, 5⟩] ⟨txA, 5⟩ ⟨[], []⟩
  exact ⟨h.1 (by decide), h.2.1 (by decide), h.2.2.1,
    h.2.2.2.1 (by decide) (by decide) (by decide),
    h.2.2.2.2.1 (by decide) (by decide), h.2.2.2.2.2 (by decide)⟩

/-- Oracle for the mining counterexample: every block hashes to a string of
three '0' characters, so the difficulty predicate always holds. -/
def mineCrypto : Crypto :=
  { sha256 := fun _ => [48, 48, 48],
    serializeTx := fun _ => "",
    serializeBlock := fun _ => "",
    utf8Lossy := fun _ => "000",
    parsePubKeyOk := fun _ => false,
    parseSigOk := fun _ => false,
    verify := fun _ _ _ => false }

/-- Mining environment where the stop flag stays unset and every `try_send`
succeeds. -/
def mineEnvAll : MineEnv :=
  { stopAt := fun _ => false, nonceAt := fun _ => [], sendOk := fun _ => true }

/-- Concrete candidate block of difficulty 3 for the mining counterexample. -/
def blockM : Block :=
  { block_header :=
      { prev_hash := [], merkle_root := [], timestamp := 0,
        difficulty := 3, nonce := [], version := 0, height := 1 },
    transactions := [], transaction_count := 0 }

/-- C5 (counterexample): with the difficulty met at every iteration and every
`try_send` succeeding, the mining thread performs a further iteration and a
further send after its first successful send — the loop body has no `return`
on the success path, only on a failed `try_send` — refuting the claim that a
successful send is followed by a return with no further iterations. -/
theorem mine_continues_after_send :
    Block.mine mineCrypto mineEnvAll blockM 2 =
      [MineEvent.tried 0, MineEvent.sent 0 blockM,
       MineEvent.tried 1, MineEvent.sent 1 blockM] ∧
    noEventsAfterSend (Block.mine mineCrypto mineEnvAll blockM 2) = false := by
  refine ⟨by decide, by decide⟩

/-- C5 (amended): when the freshly nonce'd block meets the difficulty predicate
and the stop flag is unset, the thread try-sends the block; it returns
immediately only when the send fails, while a successful send is followed by
further iterations (the next one occurring whenever the stop flag stays unset
and fuel remains). -/
theorem mine_try_send_behaviour (C : Crypto) (env : MineEnv)
    (target fuel i : Nat) (b : Block)
    (hstop : env.stopAt i = false)
    (hdiff : meets_difficulty
      (C.utf8Lossy ((b.update_nonce (env.nonceAt i)).calculate_hash C)) target = true) :
    (env.sendOk i = false →
      mineRun C env target (fuel + 1) i b = [MineEvent.tried i, MineEvent.sendFailed i]) ∧
    (env.sendOk i = true →
      mineRun C env target (fuel + 1) i b =
        MineEvent.tried i :: MineEvent.sent i (b.update_nonce (env.nonceAt i)) ::
          mineRun C env target fuel (i + 1) (b.update_nonce (env.nonceAt i))) ∧
    (env.sendOk i = true → env.stopAt (i + 1) = false → 1 ≤ fuel →
      MineEvent.tried (i + 1) ∈ mineRun C env target (fuel + 1) i b) := by
  refine ⟨?_, ?_, ?_⟩
  · intro hsend
    simp [mineRun, hstop, hdiff, hsend]
  · intro hsend
    simp [mineRun, hstop, hdiff, hsend]
  · intro hsend hstop2 hfuel
    obtain ⟨f, rfl⟩ : ∃ f, fuel = f + 1 := ⟨fuel - 1, by omega⟩
    have hstep : mineRun C env target (f + 1 + 1) i b =
        MineEvent.tried i :: MineEvent.sent i (b.update_nonce (env.nonceAt i)) ::
          mineRun C env target (f + 1) (i + 1) (b.update_nonce (env.nonceAt i)) := by
      simp [mineRun, hstop, hdiff, hsend]
    rw [hstep]
    have hmem : MineEvent.tried (i + 1) ∈
        mineRun C env target (f + 1) (i + 1) (b.update_nonce (env.nonceAt i)) := by
      simp only [mineRun, hstop2, Bool.false_eq_true, if_false]
      split_ifs <;> simp
    exact List.mem_cons_of_mem _ (List.mem_cons_of_mem _ hmem)

/-- Witness for the amended mining claim at the concrete oracle, environment
and block. -/
theorem mine_try_send_behaviour_witness :
    mineEnvAll.stopAt 0 = false ∧
    meets_difficulty
      (mineCrypto.utf8Lossy ((blockM.update_nonce (mineEnvAll.nonceAt 0)).calculate_hash mineCrypto)) 3 = true ∧
    MineEvent.tried 1 ∈ mineRun mineCrypto mineEnvAll 3 2 0 blockM :=
  ⟨rfl, by decide,
   (mine_try_send_behaviour mineCrypto mineEnvAll 3 1 0 blockM rfl (by decide)).2.2
     rfl rfl (by decide)⟩
